import Mathlib

/-!
Verification development for the daily-reporter repository.

Shallow embeddings of:
* `internal/util/slashcmd/slashcmd.go` (slash-command parsing),
* `internal/util/borrowonce/storage.go` (the borrow-once store),
* `internal/util/option/option.go` (JSON decoding of `Option[T]`),
* `internal/clients/telegram/update` (update model, routing keys),
* the telegram client's long-poll fetch loop (`Client.getUpdates`),
* the dispatcher contract (`state.Handle`).

Go machine integers are modelled as `Int` with explicit wrapping where
overflow can matter; fallible Go code (panics) is modelled with `Except`.
-/

/-! ## Slash-command parser (`internal/util/slashcmd/slashcmd.go`) -/

/-- Result type of `slashcmd.Parse`: Go `type Command struct { Method string; Args []string }`. -/
structure Command where
  Method : String
  Args : List String
  deriving DecidableEq, Repr

/-- Go `unicode.IsSpace`: the Unicode White_Space property, by code point
(TAB..CR, SPACE, NEL, NBSP, OGHAM SPACE MARK, the U+2000 space block, LINE
and PARAGRAPH SEPARATOR, NNBSP, MMSP and IDEOGRAPHIC SPACE). -/
def isSpaceGo (c : Char) : Bool :=
  (0x9 ≤ c.toNat ∧ c.toNat ≤ 0xd) ∨ c.toNat = 0x20 ∨ c.toNat = 0x85 ∨
  c.toNat = 0xa0 ∨ c.toNat = 0x1680 ∨
  (0x2000 ≤ c.toNat ∧ c.toNat ≤ 0x200a) ∨ c.toNat = 0x2028 ∨
  c.toNat = 0x2029 ∨ c.toNat = 0x202f ∨ c.toNat = 0x205f ∨ c.toNat = 0x3000

/-- Go `finalizeArg` closure in `splitArgs`: append `curArg` to `args` unless empty. -/
def finalizeArg (args : List String) (curArg : String) : List String :=
  if curArg = "" then args else args ++ [curArg]

/-- The rune loop of Go `splitArgs` (storage of `slashcmd.go`, lines 45–90),
one constructor case per loop iteration over the remaining runes. The Go
`continue` in the quote branch leaves `isEscaped` untouched (it is already
`false` there, since the branch requires `!isEscaped`). -/
def splitArgsLoop (args : List String) (curArg : String)
    (isQuoted isEscaped : Bool) : List Char → List String
  | [] => finalizeArg args curArg
  | c :: rest =>
    if c = '"' ∧ isEscaped = false then
      splitArgsLoop args curArg (!isQuoted) isEscaped rest
    else if c = '\\' ∧ isEscaped = false then
      splitArgsLoop args curArg isQuoted true rest
    else if isSpaceGo c ∧ ¬(isQuoted ∨ isEscaped) then
      splitArgsLoop (finalizeArg args curArg) "" isQuoted false rest
    else
      splitArgsLoop args (curArg.push c) isQuoted false rest

/-- Go `splitArgs(source string) []string`. -/
def splitArgs (source : String) : List String :=
  splitArgsLoop [] "" false false source.data

/-- Go `strings.SplitN(source, " ", 2)`: split at the first `' '` (0x20) only.
Returns the first part and, when a space was found, the remainder. -/
def splitNSpace2 : List Char → (List Char × Option (List Char))
  | [] => ([], none)
  | c :: rest =>
    if c = ' ' then ([], some rest)
    else
      let (w, r) := splitNSpace2 rest
      (c :: w, r)

/-- The inner `parse` closure of Go `Parse`: `strings.CutPrefix(firstWord, "/")`,
reject an empty method, otherwise split the argument tail. -/
def parseWord (firstWord : List Char) (wordsAfter : String) : Command × Bool :=
  match firstWord with
  | '/' :: method =>
    if method = [] then (⟨"", []⟩, false)
    else (⟨String.mk method, splitArgs wordsAfter⟩, true)
  | _ => (⟨"", []⟩, false)

/-- Go `slashcmd.Parse(source string) (Command, bool)` (`slashcmd.go`, lines 21–43). -/
def Parse (source : String) : Command × Bool :=
  match splitNSpace2 source.data with
  | (w, none) => parseWord w ""
  | (w, some rest) => parseWord w (String.mk rest)

/-- The concrete input of the spec's scenario 2: the characters
slash, `foo`, space, `"a b"`, space, two backslashes, space, `c`, backslash,
space, `d`. -/
def specParseInput : String := "/foo \"a b\" \\\\ c\\ d"

/-- C5 counterexample: the spec's input is 18 characters long (the claim says
20), and the second parsed argument is a single backslash, not the
two-character string `\\` that the claim text contains. -/
theorem Parse_spec_input_counterexample :
    specParseInput.length = 18 ∧
    Parse specParseInput = (⟨"foo", ["a b", "\\", "c d"]⟩, true) ∧
    ("\\" : String) ≠ "\\\\" := by
  refine ⟨by decide, by decide, by decide⟩

/-- C5 (amended): `Parse` on the 18-character input `/foo "a b" \\ c\ d`
returns `is_command = true` with method `foo` and args `a b`, a single
backslash, and `c d`; `Parse "bar"` returns `is_command = false`. -/
theorem Parse_spec_scenarios :
    Parse specParseInput = (⟨"foo", ["a b", "\\", "c d"]⟩, true) ∧
    (Parse "bar").2 = false := by
  refine ⟨by decide, by decide⟩

/-! ## Borrow-once store (`internal/util/borrowonce/storage.go`)

The store operations `Set`, `Borrow` and `Return` each take the single
top-level mutex for their whole body, so any concurrent history of store
operations is a sequence of atomic operations; the model below executes such
a sequence.  A future `Wait` returns as soon as the future is resolved
(`Future.vMu` unlocked with `Future.v` set), so the step at which a future is
resolved is the step at which its `Wait` can unblock.  Panics are modelled
with `Except`.  The constructor bug (the mutex pointer itself is never
initialized) is modelled separately below with `GoStorage`. -/

/-- Resolution status of a Go `borrowonce.Future`: `pending` is a future whose
`vMu` is still locked; `resolved v t` is a future whose `v` was set to `v` and
whose `vMu` was unlocked at step `t` (so `Wait` unblocks from step `t` on). -/
inductive FutStatus (V : Type) where
  | pending
  | resolved (v : V) (atStep : Nat)
  deriving DecidableEq, Repr

/-- Bookkeeping for one future created by `Borrow`: the key it was created
for, and its resolution status. -/
structure FutureEntry (K V : Type) where
  key : K
  status : FutStatus V
  deriving DecidableEq, Repr

/-- Go `type borrowable[V any] struct { value V; borrowed bool; queue []*Future[V] }`.
Queue members are future ids (indices into the run's future list). -/
structure Borrowable (V : Type) where
  value : V
  borrowed : Bool
  queue : List Nat
  deriving DecidableEq, Repr

/-- Go map lookup `s.store[key]` on the association-list model of the map. -/
def findSlot [DecidableEq K] (k : K) : List (K × Borrowable V) → Option (Borrowable V)
  | [] => none
  | (k', b) :: rest => if k = k' then some b else findSlot k rest

/-- Go map assignment `s.store[key] = b`: replace the entry if present,
insert it otherwise. -/
def setSlot [DecidableEq K] (k : K) (b : Borrowable V) :
    List (K × Borrowable V) → List (K × Borrowable V)
  | [] => [(k, b)]
  | (k', b') :: rest => if k = k' then (k, b) :: rest else (k', b') :: setSlot k b rest

/-- Go panics raised by the store. -/
inductive GoPanic where
  | setExisting
  | returnMissing
  | nilDereference
  deriving DecidableEq, Repr

/-- State of one run of store operations: the map contents, the futures
created so far (ids are list indices, in creation order), the values returned
by each `Borrow` call (`found` booleans, in call order), and the number of
operations executed so far (the step counter). -/
structure SState (K V : Type) where
  slots : List (K × Borrowable V)
  futures : List (FutureEntry K V)
  borrowResults : List Bool
  step : Nat
  deriving DecidableEq, Repr

/-- The empty store (`NewStorage`, map contents only). -/
def initState (K V : Type) : SState K V := ⟨[], [], [], 0⟩

/-- Body of Go `Storage.Set` (storage.go, lines 38–53): panic if the key is
present, otherwise store `{value, queue: [], borrowed: false}`. -/
def setStep [DecidableEq K] (s : SState K V) (k : K) (v : V) :
    Except GoPanic (SState K V) :=
  match findSlot k s.slots with
  | some _ => .error .setExisting
  | none =>
    .ok { s with slots := setSlot k ⟨v, false, []⟩ s.slots, step := s.step + 1 }

/-- Body of Go `Storage.Borrow` (storage.go, lines 59–86): unknown key returns
`(nil, false)`; an idle slot (empty queue, not borrowed) hands the current
value out immediately and marks the slot borrowed; otherwise the fresh future
is locked and appended to the queue. -/
def borrowStep [DecidableEq K] (s : SState K V) (k : K) :
    Except GoPanic (SState K V) :=
  match findSlot k s.slots with
  | none => .ok { s with borrowResults := s.borrowResults ++ [false], step := s.step + 1 }
  | some b =>
    let fid := s.futures.length
    if b.queue = [] ∧ b.borrowed = false then
      .ok { slots := setSlot k { b with borrowed := true } s.slots,
            futures := s.futures ++ [⟨k, .resolved b.value s.step⟩],
            borrowResults := s.borrowResults ++ [true],
            step := s.step + 1 }
    else
      .ok { slots := setSlot k { b with queue := b.queue ++ [fid] } s.slots,
            futures := s.futures ++ [⟨k, .pending⟩],
            borrowResults := s.borrowResults ++ [true],
            step := s.step + 1 }

/-- Resolve the future with id `fid`: set its value to `v` and unlock its
`vMu` at step `t` (Go `queue[0].v = value; queue[0].vMu.Unlock()`). -/
def resolveFut (v : V) (t : Nat) : List (FutureEntry K V) → Nat → List (FutureEntry K V)
  | [], _ => []
  | f :: rest, 0 => { f with status := .resolved v t } :: rest
  | f :: rest, n + 1 => f :: resolveFut v t rest n

/-- Body of Go `Storage.Return` (storage.go, lines 89–109): panic on an
unknown key; otherwise overwrite the stored value, and either mark the slot
idle (empty queue) or hand the value to the queue head and pop it. -/
def returnStep [DecidableEq K] (s : SState K V) (k : K) (v : V) :
    Except GoPanic (SState K V) :=
  match findSlot k s.slots with
  | none => .error .returnMissing
  | some b =>
    match b.queue with
    | [] =>
      .ok { s with
            slots := setSlot k { b with value := v, borrowed := false } s.slots,
            step := s.step + 1 }
    | fid :: rest =>
      .ok { s with
            slots := setSlot k { b with value := v, queue := rest } s.slots,
            futures := resolveFut v s.step s.futures fid,
            step := s.step + 1 }

/-- One store operation of a history. -/
inductive BOp (K V : Type) where
  | set (k : K) (v : V)
  | borrow (k : K)
  | ret (k : K) (v : V)
  deriving DecidableEq, Repr

/-- Execute one operation. -/
def doOp [DecidableEq K] (s : SState K V) : BOp K V → Except GoPanic (SState K V)
  | .set k v => setStep s k v
  | .borrow k => borrowStep s k
  | .ret k v => returnStep s k v

/-- Execute a history of store operations from a state; stops at the first
panic. -/
def runOps [DecidableEq K] (s : SState K V) : List (BOp K V) → Except GoPanic (SState K V)
  | [] => .ok s
  | op :: rest =>
    match doOp s op with
    | .error e => .error e
    | .ok s' => runOps s' rest

/-- Re-lookup after writing the same key: Go `s.store[key] = b` then
`s.store[key]` yields `b`. -/
theorem findSlot_setSlot_self [DecidableEq K] (k : K) (b : Borrowable V) :
    ∀ l : List (K × Borrowable V), findSlot k (setSlot k b l) = some b := by
  intro l
  induction l with
  | nil => simp [setSlot, findSlot]
  | cons hd tl ih =>
    obtain ⟨k', b'⟩ := hd
    by_cases h : k = k' <;> simp [setSlot, findSlot, h, ih]

/-- C2: value handoff through the borrow queue.  After `Set(k, v0)` on an
empty store, the first `Borrow(k)` returns an immediately-resolved future
holding `v0` with `found = true` (it resolves at its own step, step 1); the
second `Borrow(k)` returns an enqueued, still-pending future; and after
`Return(k, v1)` that second future is resolved with exactly `v1`, the value
the previous holder produced. -/
theorem borrowonce_value_handoff (k v0 v1 : String) :
    runOps (initState String String) [.set k v0, .borrow k] =
      .ok ⟨[(k, ⟨v0, true, []⟩)], [⟨k, .resolved v0 1⟩], [true], 2⟩ ∧
    runOps (initState String String) [.set k v0, .borrow k, .borrow k] =
      .ok ⟨[(k, ⟨v0, true, [1]⟩)], [⟨k, .resolved v0 1⟩, ⟨k, .pending⟩], [true, true], 3⟩ ∧
    runOps (initState String String) [.set k v0, .borrow k, .borrow k, .ret k v1] =
      .ok ⟨[(k, ⟨v1, true, []⟩)], [⟨k, .resolved v0 1⟩, ⟨k, .resolved v1 3⟩],
           [true, true], 4⟩ := by
  refine ⟨?_, ?_, ?_⟩ <;>
    simp [runOps, doOp, setStep, borrowStep, returnStep, initState, findSlot,
      setSlot, resolveFut]

/-- C3: the borrow-once panic contract.  `Set(k, v)` panics exactly when the
key is already present (and otherwise stores `{v, not borrowed, empty queue}`
normally); `Return(k, v)` panics exactly when the key is absent (and
otherwise completes, updating the stored value to `v`). -/
theorem borrowonce_panic_contract [DecidableEq K] (s : SState K V) (k : K) (v : V) :
    (setStep s k v = .error .setExisting ↔ (findSlot k s.slots).isSome) ∧
    ((findSlot k s.slots).isSome = false →
      setStep s k v =
        .ok { s with slots := setSlot k ⟨v, false, []⟩ s.slots, step := s.step + 1 }) ∧
    (returnStep s k v = .error .returnMissing ↔ findSlot k s.slots = none) ∧
    (∀ b, findSlot k s.slots = some b →
      ∃ s', returnStep s k v = .ok s' ∧
        (findSlot k s'.slots).map Borrowable.value = some v) := by
  refine ⟨?_, ?_, ?_, ?_⟩
  · cases h : findSlot k s.slots <;> simp [setStep, h]
  · intro h
    cases h' : findSlot k s.slots <;> simp [h', Option.isSome] at h ⊢
    simp [setStep, h']
  · cases h : findSlot k s.slots with
    | none => simp [returnStep, h]
    | some b => cases hq : b.queue <;> simp [returnStep, h, hq]
  · intro b hb
    cases hq : b.queue with
    | nil =>
      have hstep : returnStep s k v = .ok { s with slots := (setSlot k ({ b with value := v, borrowed := false }) s.slots), step := s.step + 1 } := by
        simp [returnStep, hb, hq]
      exact ⟨_, hstep, by simp [findSlot_setSlot_self]⟩
    | cons fid rest =>
      have hstep : returnStep s k v = .ok { s with slots := (setSlot k ({ b with value := v, queue := rest }) s.slots), futures := (resolveFut v s.step s.futures fid), step := s.step + 1 } := by
        simp [returnStep, hb, hq]
      exact ⟨_, hstep, by simp [findSlot_setSlot_self]⟩

/-- Witness for the panic contract at concrete stores: a store holding key
`a` rejects a second `Set` of `a`, the empty store accepts `Set`, and
`Return` on a held key stores the returned value. -/
theorem borrowonce_panic_contract_witness :
    setStep (⟨[("a", ⟨"x", false, []⟩)], [], [], 1⟩ : SState String String) "a" "y" =
      .error .setExisting ∧
    setStep (initState String String) "a" "y" =
      .ok ⟨[("a", ⟨"y", false, []⟩)], [], [], 1⟩ ∧
    (∃ s', returnStep (⟨[("a", ⟨"x", false, []⟩)], [], [], 1⟩ : SState String String) "a" "z" =
      .ok s' ∧ (findSlot "a" s'.slots).map Borrowable.value = some "z") := by
  refine ⟨?_, ?_, ?_⟩
  · exact (borrowonce_panic_contract ⟨[("a", ⟨"x", false, []⟩)], [], [], 1⟩ "a" "y").1.mpr
      (by decide)
  · have h := (borrowonce_panic_contract (initState String String) "a" "y").2.1 (by decide)
    simpa [initState, setSlot] using h
  · exact (borrowonce_panic_contract ⟨[("a", ⟨"x", false, []⟩)], [], [], 1⟩ "a" "z").2.2.2
      ⟨"x", false, []⟩ (by decide)

/-! ## The `NewStorage` nil-mutex bug (C10)

Go `type Storage[K, V] struct { storeMu *sync.Mutex; store map[K]borrowable[V] }`,
and `NewStorage` (storage.go, lines 31–35) initializes only `store`.  The
`storeMu` pointer is modelled as `Option Unit` (`none` = nil); each exported
operation starts with `s.storeMu.Lock()`, which dereferences the pointer. -/

/-- The Go `Storage` struct: the mutex pointer together with the logical
store contents. -/
structure GoStorage (K V : Type) where
  storeMu : Option Unit
  st : SState K V

/-- Go `NewStorage`: only the `store` map is initialized; `storeMu` keeps its
zero value, the nil pointer. -/
def NewStorage (K V : Type) : GoStorage K V := ⟨none, initState K V⟩

/-- Go `s.storeMu.Lock()`: dereferencing a nil `*sync.Mutex` panics. -/
def lockMu : Option Unit → Except GoPanic Unit
  | none => .error .nilDereference
  | some u => .ok u

/-- Go `Storage.Set`, including the initial `s.storeMu.Lock()`. -/
def goSet [DecidableEq K] (s : GoStorage K V) (k : K) (v : V) :
    Except GoPanic (GoStorage K V) :=
  match lockMu s.storeMu with
  | .error e => .error e
  | .ok _ => (setStep s.st k v).map fun st' => ⟨s.storeMu, st'⟩

/-- Go `Storage.Borrow`, including the initial `s.storeMu.Lock()`. -/
def goBorrow [DecidableEq K] (s : GoStorage K V) (k : K) :
    Except GoPanic (GoStorage K V) :=
  match lockMu s.storeMu with
  | .error e => .error e
  | .ok _ => (borrowStep s.st k).map fun st' => ⟨s.storeMu, st'⟩

/-- Go `Storage.Return`, including the initial `s.storeMu.Lock()`. -/
def goReturn [DecidableEq K] (s : GoStorage K V) (k : K) (v : V) :
    Except GoPanic (GoStorage K V) :=
  match lockMu s.storeMu with
  | .error e => .error e
  | .ok _ => (returnStep s.st k v).map fun st' => ⟨s.storeMu, st'⟩

/-- C10: `NewStorage` leaves the mutex pointer nil, so on the storage it
returns every `Set`, `Borrow` and `Return` hits a nil-pointer dereference in
its first statement and panics; no store operation completes normally. -/
theorem newStorage_operations_nil_dereference {K V : Type} [DecidableEq K]
    (k : K) (v : V) :
    (NewStorage K V).storeMu = none ∧
    goSet (NewStorage K V) k v = .error .nilDereference ∧
    goBorrow (NewStorage K V) k = .error .nilDereference ∧
    goReturn (NewStorage K V) k v = .error .nilDereference :=
  ⟨rfl, rfl, rfl, rfl⟩

/-! ## Update model (`internal/clients/telegram/update`, current generation)

Go `int64` ids are modelled as `Int`; the Go field `From` (a reserved word in
Lean) is written `from_`.  Optional fields (`option.Option[...]`) are Lean
`Option`s. -/

/-- Go `type User struct` of the update package. -/
structure User where
  id : Int
  isBot : Bool
  firstName : String
  lastName : Option String
  username : Option String
  languageCode : Option String
  deriving DecidableEq, Repr

/-- Go `type Chat struct { ID ChatID; Type ChatType }`; `ChatType` is a Go
string. -/
structure Chat where
  id : Int
  type : String
  deriving DecidableEq, Repr

/-- Go `type Message struct` of the update package. -/
structure Message where
  id : Int
  from_ : Option User
  date : Int
  chat : Chat
  text : Option String
  deriving DecidableEq, Repr

/-- Go `type CallbackQuery struct`: its `From User` field is not optional —
every callback query carries a sender. -/
structure CallbackQuery where
  updateID : Int
  id : String
  from_ : User
  message : Option Message
  data : Option String
  deriving DecidableEq, Repr

/-- Go `type Update struct { ID UpdateID; Message option.Option[Message];
CallbackQuery option.Option[CallbackQuery] }`. -/
structure Update where
  id : Int
  message : Option Message
  callbackQuery : Option CallbackQuery
  deriving DecidableEq, Repr

/-- Go `Update.UserID() (UserID, bool)`: only the message's sender is
consulted; the fall-through returns `(UserID(0), false)`. -/
def Update.UserID (u : Update) : Int × Bool :=
  match u.message with
  | some m =>
    match m.from_ with
    | some f => (f.id, true)
    | none => (0, false)
  | none => (0, false)

/-- A sender with id 7 and a callback query sent by them. -/
def cbUser : User := ⟨7, false, "n", none, none, none⟩

/-- A callback query from `cbUser` with no originating message. -/
def cbQuery : CallbackQuery := ⟨1, "q", cbUser, none, none⟩

/-- An update that carries only that callback query. -/
def cbOnlyUpdate : Update := ⟨1, none, some cbQuery⟩

/-- C8 counterexample: `cbOnlyUpdate` is a callback-query update, so it has a
sender (`CallbackQuery.From` is mandatory, here `cbUser` with id 7), yet
`Update.UserID` returns `(0, false)` — the user key is absent. -/
theorem UserID_callback_query_counterexample :
    Update.UserID cbOnlyUpdate = (0, false) ∧
    cbOnlyUpdate.callbackQuery = some cbQuery ∧
    cbQuery.from_.id = 7 :=
  ⟨rfl, rfl, rfl⟩

/-- C8 (amended): `Update.UserID` returns the sender's id exactly when the
update carries a message with a sender; it returns `(0, false)` for every
other update, including callback-query updates, whose (mandatory) sender is
never consulted. -/
theorem UserID_from_message_sender_only (u : Update) :
    ((u.UserID).2 = true ↔ (u.message.bind Message.from_).isSome) ∧
    (∀ m f, u.message = some m → m.from_ = some f → u.UserID = (f.id, true)) ∧
    ((u.message.bind Message.from_) = none → u.UserID = (0, false)) := by
  refine ⟨?_, ?_, ?_⟩
  · cases hm : u.message with
    | none => simp [Update.UserID, hm]
    | some m => cases hf : m.from_ <;> simp [Update.UserID, hm, hf]
  · intro m f hm hf
    simp [Update.UserID, hm, hf]
  · intro h
    cases hm : u.message with
    | none => simp [Update.UserID, hm]
    | some m =>
      cases hf : m.from_ with
      | none => simp [Update.UserID, hm, hf]
      | some f => simp [hm, hf] at h

/-- A message update whose sender has id 42. -/
def msgUpdate : Update :=
  ⟨2, some ⟨10, some ⟨42, false, "m", none, none, none⟩, 0, ⟨100, "private"⟩, some "hi"⟩, none⟩

/-- Witness for the amended user-key derivation: on a message update whose
sender has id 42 the user key is `(42, true)`. -/
theorem UserID_from_message_sender_only_witness :
    Update.UserID msgUpdate = (42, true) :=
  (UserID_from_message_sender_only msgUpdate).2.1
    ⟨10, some ⟨42, false, "m", none, none, none⟩, 0, ⟨100, "private"⟩, some "hi"⟩
    ⟨42, false, "m", none, none, none⟩ rfl rfl

/-! ## Long-poll fetcher: offset advance (`Client.getUpdates`, part_010)

The Go loop over a fetch batch is
`if getUpdates.Offset <= upd.ID { getUpdates.Offset = upd.ID + 1 }` executed
for every update of the batch in order.  `UpdateID` is a Go `int64`, so the
increment wraps at 2^63. -/

/-- Two's-complement wrap of an unbounded integer into `int64`. -/
def int64wrap (x : Int) : Int := (x + 2 ^ 63) % 2 ^ 64 - 2 ^ 63

/-- One iteration of the offset loop for a single update id. -/
def offsetStep (off id : Int) : Int := if off ≤ id then int64wrap (id + 1) else off

/-- The stored offset after processing a whole batch in order. -/
def offsetAfterBatch (off : Int) (ids : List Int) : Int := ids.foldl offsetStep off

/-- One offset-loop iteration is a max: under `int64` bounds with no
overflow, `offsetStep off id = max off (id + 1)`. -/
theorem offsetStep_eq_max (off id : Int) (h1 : -(2 ^ 63) ≤ id) (h2 : id ≤ 2 ^ 63 - 2) :
    offsetStep off id = max off (id + 1) := by
  have hw : int64wrap (id + 1) = id + 1 := by
    unfold int64wrap
    have h0 : (0 : Int) ≤ id + 1 + 2 ^ 63 := by linarith
    have hlt : id + 1 + 2 ^ 63 < 2 ^ 64 := by
      have h64 : (2 : Int) ^ 64 = 2 ^ 63 + 2 ^ 63 := by norm_num
      linarith
    rw [Int.emod_eq_of_lt h0 hlt]
    ring
  unfold offsetStep
  rw [hw]
  by_cases h : off ≤ id
  · simp [h]; omega
  · simp [h]; omega

/-- Folding `max` from a merged seed splits: `foldl max (max a b) l = max a (foldl max b l)`. -/
theorem foldl_max_split (l : List Int) : ∀ a b : Int, l.foldl max (max a b) = max a (l.foldl max b) := by
  induction l with
  | nil => intro a b; rfl
  | cons c t ih =>
    intro a b
    show t.foldl max (max (max a b) c) = max a (t.foldl max (max b c))
    rw [max_assoc, ih]

/-- The seed-based fold of `max` is a member of seed-cons-list. -/
theorem foldl_max_mem (l : List Int) : ∀ a : Int, l.foldl max a ∈ a :: l := by
  induction l with
  | nil => intro a; simp
  | cons c t ih =>
    intro a
    show t.foldl max (max a c) ∈ a :: c :: t
    rcases List.mem_cons.mp (ih (max a c)) with h | h
    · rcases max_choice a c with hm | hm
      · rw [h, hm]; exact List.mem_cons_self _ _
      · rw [h, hm]; exact List.mem_cons_of_mem _ (List.mem_cons_self _ _)
    · exact List.mem_cons_of_mem _ (List.mem_cons_of_mem _ h)

/-- Every element of seed-cons-list is bounded by the fold of `max`. -/
theorem foldl_max_le (l : List Int) : ∀ a : Int, ∀ j ∈ a :: l, j ≤ l.foldl max a := by
  induction l with
  | nil => intro a j hj; simp at hj; simp [hj]
  | cons c t ih =>
    intro a j hj
    show j ≤ t.foldl max (max a c)
    rcases List.mem_cons.mp hj with h | h
    · exact le_trans (h ▸ le_max_left a c) (ih (max a c) _ (List.mem_cons_self _ _))
    · rcases List.mem_cons.mp h with h' | h'
      · exact le_trans (h' ▸ le_max_right a c) (ih (max a c) _ (List.mem_cons_self _ _))
      · exact ih (max a c) j (List.mem_cons_of_mem _ h')

/-- Core computation: over an in-range batch the offset loop computes
`max off (batch maximum + 1)`. -/
theorem offsetAfterBatch_cons (l : List Int) : ∀ (off i : Int),
    (-(2 ^ 63) ≤ i ∧ i ≤ 2 ^ 63 - 2) → (∀ j ∈ l, -(2 ^ 63) ≤ j ∧ j ≤ 2 ^ 63 - 2) →
    offsetAfterBatch off (i :: l) = max off (l.foldl max i + 1) := by
  induction l with
  | nil =>
    intro off i hi _
    show offsetStep off i = max off (i + 1)
    exact offsetStep_eq_max off i hi.1 hi.2
  | cons j t ih =>
    intro off i hi hl
    have hj := hl j (List.mem_cons_self _ _)
    have ht : ∀ x ∈ t, -(2 ^ 63) ≤ x ∧ x ≤ 2 ^ 63 - 2 :=
      fun x hx => hl x (List.mem_cons_of_mem _ hx)
    show offsetAfterBatch (offsetStep off i) (j :: t) = max off ((j :: t).foldl max i + 1)
    rw [ih (offsetStep off i) j hj ht, offsetStep_eq_max off i hi.1 hi.2]
    have h1 : (j :: t).foldl max i = t.foldl max (max i j) := rfl
    rw [h1, foldl_max_split t i j]
    omega

/-- C6: update-offset monotonicity.  An empty fetch batch leaves the offset
unchanged, and a non-empty batch (in any order) moves it to
`max(prev_offset, max(id) + 1)`: the fold `l.foldl max i` below is the
maximum of all ids of the batch `i :: l` (it belongs to the batch and bounds
every batch element). -/
theorem getUpdates_offset_monotonicity (off : Int) (ids : List Int)
    (hbound : ∀ i ∈ ids, -(2 ^ 63) ≤ i ∧ i ≤ 2 ^ 63 - 2) :
    (offsetAfterBatch off [] = off) ∧
    (∀ i l, ids = i :: l →
      offsetAfterBatch off ids = max off (l.foldl max i + 1) ∧
      l.foldl max i ∈ ids ∧ (∀ j ∈ ids, j ≤ l.foldl max i)) := by
  refine ⟨rfl, ?_⟩
  rintro i l rfl
  have hi := hbound i (List.mem_cons_self _ _)
  have hl : ∀ j ∈ l, -(2 ^ 63) ≤ j ∧ j ≤ 2 ^ 63 - 2 :=
    fun j hj => hbound j (List.mem_cons_of_mem _ hj)
  exact ⟨offsetAfterBatch_cons l off i hi hl, foldl_max_mem l i, foldl_max_le l i⟩

/-- Witness for offset monotonicity: the unordered batch `[7, 3, 9]` from
offset 5 stores offset 10. -/
theorem getUpdates_offset_monotonicity_witness :
    offsetAfterBatch 5 [7, 3, 9] = 10 := by
  have h := (getUpdates_offset_monotonicity 5 [7, 3, 9] (by decide)).2 7 [3, 9] rfl
  rw [h.1]
  decide

/-! ## Option JSON decoding (`internal/util/option/option.go`)

`Option[T]` is modelled as Lean `Option`: Go `Some(v)` stores `v` in the
`value interface{}` field and `None` leaves it nil, and `IsSome`/`IsNone`
test that field against nil, which for a concrete `T` such as `string`
matches `Option.isSome`/`Option.isNone` exactly.

`Option.UnmarshalJSON` (option.go, lines 89–100) runs `json.Unmarshal` into a
zero `T` and on success unconditionally stores `Some(parsed)`.  The
representative `T` is Go `string`; `encoding/json` semantics for it: a JSON
string decodes to its value, JSON `null` has no effect on the target (which
stays the zero value `""`) and reports no error, and any other JSON value is
a type error.  A missing object field never invokes the unmarshaler, leaving
the zero `Option[T]`, i.e. `None`. -/

/-- A small JSON value type (the shapes exercised by the decoder model). -/
inductive Json where
  | null
  | str (s : String)
  | num (n : Int)
  deriving DecidableEq, Repr

/-- Go `json.Unmarshal(data, &parsed)` with `parsed` a zero `string`:
`null` leaves the zero value and returns no error. -/
def goUnmarshalString : Json → Except String String
  | .str s => .ok s
  | .null => .ok ""
  | .num _ => .error "cannot unmarshal number into value of type string"

/-- Go `(*Option[string]).UnmarshalJSON` (option.go, lines 89–100): on inner
success the result is always `Some(parsed)`. -/
def optionStringUnmarshalJSON (data : Json) : Except String (Option String) :=
  match goUnmarshalString data with
  | .error e => .error ("while JSON-unmarshaling Option: " ++ e)
  | .ok parsed => .ok (some parsed)

/-- First binding of a field name in a JSON object's field list. -/
def lookupField (name : String) : List (String × Json) → Option Json
  | [] => none
  | (n, v) :: rest => if name = n then some v else lookupField name rest

/-- Decoding one `Option[string]` struct field from a JSON object:
a missing field leaves the zero value `None`; a present field (including
`null`) is handed to `Option.UnmarshalJSON`. -/
def decodeOptionStringField (fields : List (String × Json)) (name : String) :
    Except String (Option String) :=
  match lookupField name fields with
  | none => .ok none
  | some v => optionStringUnmarshalJSON v

/-- C4 counterexample: a field that is present with value JSON `null`
decodes to `some ""` (the zero value wrapped by `UnmarshalJSON`), not to
`none` as the claim states. -/
theorem option_null_field_counterexample :
    decodeOptionStringField [("f", .null)] "f" = .ok (some "") ∧
    some "" ≠ (none : Option String) :=
  ⟨rfl, by decide⟩

/-- C4 (amended): decoding an `Option[string]` field yields `some (parsed)`
for a present non-null string field, `none` for a missing field, and
`some ""` — never `none` — for a field that is present with value `null`,
because `UnmarshalJSON` wraps whatever the inner decode produced. -/
theorem option_field_decoding (fields : List (String × Json)) (name : String) :
    (∀ s, lookupField name fields = some (.str s) →
      decodeOptionStringField fields name = .ok (some s)) ∧
    (lookupField name fields = none → decodeOptionStringField fields name = .ok none) ∧
    (lookupField name fields = some .null →
      decodeOptionStringField fields name = .ok (some "")) := by
  refine ⟨?_, ?_, ?_⟩
  · intro s h
    simp [decodeOptionStringField, h, optionStringUnmarshalJSON, goUnmarshalString]
  · intro h
    simp [decodeOptionStringField, h]
  · intro h
    simp [decodeOptionStringField, h, optionStringUnmarshalJSON, goUnmarshalString]

/-- Witness for option-field decoding on a concrete object with all three
field shapes. -/
theorem option_field_decoding_witness :
    decodeOptionStringField [("a", .str "v"), ("b", .null)] "a" = .ok (some "v") ∧
    decodeOptionStringField [("a", .str "v"), ("b", .null)] "c" = .ok none ∧
    decodeOptionStringField [("a", .str "v"), ("b", .null)] "b" = .ok (some "") := by
  refine ⟨?_, ?_, ?_⟩
  · exact (option_field_decoding [("a", .str "v"), ("b", .null)] "a").1 "v" (by decide)
  · exact (option_field_decoding [("a", .str "v"), ("b", .null)] "c").2.1 (by decide)
  · exact (option_field_decoding [("a", .str "v"), ("b", .null)] "b").2.2 (by decide)

/-! ## Dispatcher (`state.Handle`, current generation)

The worker pool (part_010, `processUpdates`) invokes the dispatcher as
`state.Handle(ctx, c.bot, job.update, handler)`, and the current handler
implementations (e.g. `RootHandler.CallbackQuery(ctx, cq)`) expose a
callback-query operation — but the current-generation `handler.go` that
defines this four-argument `Handle` and its `Handler` interface is not part
of the corpus; only older generations of the dispatcher and the callers and
implementors of the current one are.  The dispatcher itself is therefore
modelled from the spec below. -/

/-- Typed record for a private text message
(`internal/clients/telegram/update/update.go`, current generation). -/
structure PrivateTextMessage where
  updateID : Int
  id : Int
  text : String
  chat : Chat
  from_ : User
  deriving DecidableEq, Repr

/-- Typed record for a group text message (same file). -/
structure GroupTextMessage where
  updateID : Int
  id : Int
  text : String
  chat : Chat
  from_ : User
  deriving DecidableEq, Repr

/-- Modelled from the spec: the four handler operations of §4.5
(`on_private_text`, `on_group_text`, `on_callback_query`, `on_ignore`), all
returning a `Transition`, here an abstract result type `T`.  The Go
`Handler` interface of the current generation is not in the corpus. -/
structure Handler (T : Type) where
  onPrivateText : PrivateTextMessage → T
  onGroupText : GroupTextMessage → T
  onCallbackQuery : CallbackQuery → T
  onIgnore : Unit → T

/-- Leading-whitespace trim of Go `strings.TrimSpace` (on `isSpaceGo`). -/
def trimLeadingSpaces (l : List Char) : List Char := l.dropWhile isSpaceGo

/-- Go `strings.TrimSpace`: drop leading and trailing white space. -/
def trimSpaceGo (s : String) : String :=
  String.mk ((trimLeadingSpaces ((trimLeadingSpaces s.data).reverse)).reverse)

/-- Modelled from the spec (§4.6 step 1): strip a leading `@<botname>`
mention with surrounding whitespace, as the older in-corpus dispatchers do
with `strings.TrimSpace(strings.TrimPrefix(text, "@"+username))` when the
bot has a username. -/
def stripMention (botUsername : Option String) (text : String) : String :=
  match botUsername with
  | none => text
  | some un =>
    if un = "" then text
    else
      let tag := ('@' :: un.data)
      if tag.isPrefixOf text.data then trimSpaceGo (String.mk (text.data.drop tag.length))
      else trimSpaceGo text

/-- Modelled from the spec: the current-generation dispatcher `state.Handle`
(§4.6).  Step 1: a message with text and sender in a private or group chat is
canonicalized and routed to the typed handler method; step 2: otherwise an
update carrying a callback query goes to `on_callback_query`; step 3:
everything else goes to `on_ignore` (per §4.6 step 4 this includes supergroup
and channel messages). -/
def specHandle (T : Type) (botUsername : Option String) (u : Update)
    (h : Handler T) : T :=
  let fallback :=
    match u.callbackQuery with
    | some cq => h.onCallbackQuery cq
    | none => h.onIgnore ()
  match u.message with
  | some m =>
    match m.text, m.from_ with
    | some t, some f =>
      if m.chat.type = "private" then
        h.onPrivateText ⟨u.id, m.id, stripMention botUsername t, m.chat, f⟩
      else if m.chat.type = "group" then
        h.onGroupText ⟨u.id, m.id, stripMention botUsername t, m.chat, f⟩
      else fallback
    | _, _ => fallback
  | none => fallback

/-- C9: an update that carries a callback query and no message is dispatched
to the handler's `on_callback_query` operation, receiving that callback
query — not to the `on_ignore` catch-all. -/
theorem dispatch_callback_query (T : Type) (botUsername : Option String)
    (h : Handler T) (u : Update) (cq : CallbackQuery)
    (hm : u.message = none) (hcq : u.callbackQuery = some cq) :
    specHandle T botUsername u h = h.onCallbackQuery cq := by
  simp [specHandle, hm, hcq]

/-- Witness for callback-query dispatch: a concrete callback-only update
reaches `on_callback_query` (result 2), not `on_ignore` (result 3). -/
theorem dispatch_callback_query_witness :
    specHandle Nat none ⟨9, none, some ⟨9, "cb", ⟨5, false, "u", none, none, none⟩, none, none⟩⟩
      ⟨fun _ => 0, fun _ => 1, fun _ => 2, fun _ => 3⟩ = 2 :=
  dispatch_callback_query Nat none
    ⟨fun _ => 0, fun _ => 1, fun _ => 2, fun _ => 3⟩
    ⟨9, none, some ⟨9, "cb", ⟨5, false, "u", none, none, none⟩, none, none⟩⟩
    ⟨9, "cb", ⟨5, false, "u", none, none, none⟩, none, none⟩ rfl rfl

/-! ## Long-poll fetcher: retry ceiling (`Client.getUpdates`, part_010)

The fetch loop keeps `failures := 0` and runs `for failures < 10`
(`getUpdatesRetries = 10`).  A generic fetch error increments `failures`; a
successful fetch resets it to 0; when the counter reaches 10 the loop guard
fails and the function panics with the "too many errors" message, which the
deferred recover turns into the fatal lifecycle error.  The other branches of
the error classifier leave the loop differently (401 and the migration hint
are fatal on their own, a `retry_after` hint sleeps without touching the
counter, cancellation returns) and are outside this claim; a trace here is
the sequence of outcomes of consecutive `/getUpdates` attempts that reach
the counter logic. -/

/-- Outcome of one `/getUpdates` attempt as seen by the failure counter. -/
inductive FetchOutcome where
  | success
  | failure
  deriving DecidableEq, Repr

/-- Effect of one attempt on the `failures` counter: an error runs
`failures++`, a success runs the `if failures != 0 { failures = 0 }` reset. -/
def failStep (n : Nat) : FetchOutcome → Nat
  | .success => 0
  | .failure => n + 1

/-- The `failures` counter after a sequence of attempts. -/
def ctr (n : Nat) (p : List FetchOutcome) : Nat := p.foldl failStep n

/-- The fetch loop on a trace of attempt outcomes: `some k` means the loop
guard `failures < 10` failed — the "too many errors" panic fired — right
after consuming `k` outcomes; `none` means the trace was exhausted with the
loop still running. -/
def fetchLoop : Nat → List FetchOutcome → Option Nat
  | _, [] => none
  | n, o :: rest =>
    if failStep n o = 10 then some 1
    else
      match fetchLoop (failStep n o) rest with
      | none => none
      | some k => some (k + 1)

theorem ctr_nil (n : Nat) : ctr n [] = n := rfl

theorem ctr_cons (n : Nat) (o : FetchOutcome) (l : List FetchOutcome) :
    ctr n (o :: l) = ctr (failStep n o) l := rfl

theorem ctr_append (n : Nat) (p q : List FetchOutcome) :
    ctr n (p ++ q) = ctr (ctr n p) q := List.foldl_append _ _ _ _

/-- The counter increments by at most one per attempt, so from a start below
10 it can only reach 10 exactly. -/
theorem failStep_le (n : Nat) (o : FetchOutcome) : failStep n o ≤ n + 1 := by
  cases o <;> simp [failStep]

/-- Characterization of the fetch loop: starting below the ceiling, the loop
panics after exactly `k` attempts iff the counter first reaches 10 there. -/
theorem fetchLoop_iff : ∀ (trace : List FetchOutcome) (n : Nat), n < 10 → ∀ k,
    (fetchLoop n trace = some k ↔
      (1 ≤ k ∧ k ≤ trace.length ∧ ctr n (trace.take k) = 10 ∧
        ∀ j < k, ctr n (trace.take j) < 10)) := by
  intro trace
  induction trace with
  | nil =>
    intro n hn k
    constructor
    · intro h; simp [fetchLoop] at h
    · rintro ⟨h1, h2, -, -⟩; simp at h2; omega
  | cons o rest ih =>
    intro n hn k
    by_cases hf : failStep n o = 10
    · have hL : fetchLoop n (o :: rest) = some 1 := by simp [fetchLoop, hf]
      rw [hL]
      constructor
      · intro h
        have hk : k = 1 := by injection h with h'; omega
        subst hk
        refine ⟨le_refl 1, by simp, ?_, ?_⟩
        · show ctr n [o] = 10
          rw [ctr_cons, ctr_nil, hf]
        · intro j hj
          have : j = 0 := by omega
          subst this
          simpa [ctr_nil] using hn
      · rintro ⟨h1, h2, h3, h4⟩
        rcases Nat.lt_or_ge k 2 with hk | hk
        · have : k = 1 := by omega
          rw [this]
        · exfalso
          have := h4 1 (by omega)
          rw [show (o :: rest).take 1 = [o] from rfl, ctr_cons, ctr_nil, hf] at this
          omega
    · have hflt : failStep n o < 10 := lt_of_le_of_ne (le_trans (failStep_le n o) (by omega)) hf
      have hL : fetchLoop n (o :: rest) =
          match fetchLoop (failStep n o) rest with
          | none => none
          | some k => some (k + 1) := by
        simp [fetchLoop, hf]
      rw [hL]
      rcases k with _ | k'
      · constructor
        · intro h
          cases hrec : fetchLoop (failStep n o) rest <;> rw [hrec] at h <;> simp at h
        · rintro ⟨h1, -, -, -⟩; omega
      · have ihk := ih (failStep n o) hflt k'
        constructor
        · intro h
          have hrec : fetchLoop (failStep n o) rest = some k' := by
            cases hrec : fetchLoop (failStep n o) rest <;> rw [hrec] at h <;> simp at h
            · rw [h]
          obtain ⟨i1, i2, i3, i4⟩ := ihk.mp hrec
          refine ⟨by omega, by simp; omega, ?_, ?_⟩
          · rw [List.take_succ_cons, ctr_cons]
            exact i3
          · intro j hj
            rcases j with _ | j'
            · simpa [ctr_nil] using hn
            · rw [List.take_succ_cons, ctr_cons]
              exact i4 j' (by omega)
        · rintro ⟨h1, h2, h3, h4⟩
          rw [List.take_succ_cons, ctr_cons] at h3
          have hk1 : 1 ≤ k' := by
            by_contra hk0
            have : k' = 0 := by omega
            subst this
            simp [ctr_nil] at h3
            exact hf h3
          have hrec : fetchLoop (failStep n o) rest = some k' := by
            refine ihk.mpr ⟨hk1, by simp at h2; omega, h3, ?_⟩
            intro j hj
            have := h4 (j + 1) (by omega)
            rw [List.take_succ_cons, ctr_cons] at this
            exact this
          rw [hrec]

/-- A run of counted failures adds its length to the counter. -/
theorem ctr_all_failures (q : List FetchOutcome) :
    ∀ n, (∀ o ∈ q, o = FetchOutcome.failure) → ctr n q = n + q.length := by
  induction q with
  | nil => intro n _; simp [ctr_nil]
  | cons o t ih =>
    intro n hq
    have ho : o = FetchOutcome.failure := hq o (List.mem_cons_self _ _)
    have ht : ∀ x ∈ t, x = FetchOutcome.failure := fun x hx => hq x (List.mem_cons_of_mem _ hx)
    rw [ctr_cons, ho, ih _ ht]
    simp [failStep]
    omega

/-- The counter value is the length of the trailing failure run: any trace
splits as a prefix followed by `ctr 0 p` trailing failures. -/
theorem ctr_decomp (p : List FetchOutcome) :
    ∃ p₀ q, p = p₀ ++ q ∧ q.length = ctr 0 p ∧ ∀ o ∈ q, o = FetchOutcome.failure := by
  induction p using List.reverseRecOn with
  | nil => exact ⟨[], [], rfl, rfl, by simp⟩
  | append_singleton p x ih =>
    obtain ⟨p₀, q, hpq, hlen, hfail⟩ := ih
    cases x with
    | success =>
      refine ⟨p ++ [FetchOutcome.success], [], by simp, ?_, by simp⟩
      rw [ctr_append]
      rfl
    | failure =>
      refine ⟨p₀, q ++ [FetchOutcome.failure], by rw [hpq, List.append_assoc], ?_, ?_⟩
      · have hq1 : (q ++ [FetchOutcome.failure]).length = q.length + 1 := by simp
        rw [ctr_append, hq1, hlen]
        rfl
      · intro o ho
        rcases List.mem_append.mp ho with h | h
        · exact hfail o h
        · simpa using h

/-- Discrete intermediate value: the counter moves by +1 or resets to 0, so
if it is ever at least 10 it first hits exactly 10, strictly below 10 before. -/
theorem ctr_first_hit (trace : List FetchOutcome) (m : Nat) (hm : m ≤ trace.length)
    (h10 : 10 ≤ ctr 0 (trace.take m)) :
    ∃ k, k ≤ m ∧ ctr 0 (trace.take k) = 10 ∧ ∀ j < k, ctr 0 (trace.take j) < 10 := by
  classical
  have hP : ∃ j, 10 ≤ ctr 0 (trace.take j) := ⟨m, h10⟩
  refine ⟨Nat.find hP, Nat.find_min' hP h10, ?_, ?_⟩
  · have hPk : 10 ≤ ctr 0 (trace.take (Nat.find hP)) := Nat.find_spec hP
    rcases Nat.eq_zero_or_pos (Nat.find hP) with h0 | hpos
    · rw [h0] at hPk
      simp [ctr_nil] at hPk
    · obtain ⟨k', hk'⟩ : ∃ k', Nat.find hP = k' + 1 := ⟨Nat.find hP - 1, by omega⟩
      have hk'lt : k' < trace.length := by
        have := Nat.find_min' hP h10
        omega
      have htake : trace.take (k' + 1) = trace.take k' ++ [trace.get ⟨k', hk'lt⟩] := by
        rw [List.take_succ, List.getElem?_eq_getElem hk'lt]
        rfl
      have hstep : ctr 0 (trace.take (k' + 1)) =
          failStep (ctr 0 (trace.take k')) (trace.get ⟨k', hk'lt⟩) := by
        rw [htake, ctr_append]
        rfl
      have hlt : ctr 0 (trace.take k') < 10 := by
        have := Nat.find_min hP (show k' < Nat.find hP by omega)
        omega
      rw [hk'] at hPk ⊢
      cases hx : trace.get ⟨k', hk'lt⟩ with
      | success => rw [hx] at hstep; simp [failStep] at hstep; omega
      | failure => rw [hx] at hstep; simp [failStep] at hstep; omega
  · intro j hj
    have := Nat.find_min hP hj
    omega

/-- Ten consecutive counted failures occur somewhere in the trace. -/
def hasTenConsecutiveFailures (l : List FetchOutcome) : Prop :=
  ∃ p r, l = p ++ List.replicate 10 FetchOutcome.failure ++ r

/-- Take of an append, offset by the left part's length. -/
theorem take_append_len (a : List α) : ∀ (b : List α) (n : Nat),
    (a ++ b).take (a.length + n) = a ++ b.take n := by
  induction a with
  | nil => intro b n; simp
  | cons x t ih => intro b n; simp [List.take, ih, Nat.succ_add]

/-- C7: the fetch loop surfaces the "too many errors" fatal exactly when 10
consecutive `/getUpdates` attempts fail: the panic fires on some trace iff
the trace contains 10 consecutive failures; when it fires after `k`
attempts, the ten attempts ending at `k` are failures and no earlier prefix
already contained a complete run of 10 (it fires on the 10th consecutive
failure, not before); and a successful fetch resets the counter to zero. -/
theorem getUpdates_retry_ceiling (trace : List FetchOutcome) :
    ((∃ k, fetchLoop 0 trace = some k) ↔ hasTenConsecutiveFailures trace) ∧
    (∀ k, fetchLoop 0 trace = some k →
      (∃ p, trace.take k = p ++ List.replicate 10 FetchOutcome.failure) ∧
      ∀ j < k, ¬hasTenConsecutiveFailures (trace.take j)) ∧
    (∀ n, failStep n FetchOutcome.success = 0) := by
  have hiff := fetchLoop_iff trace 0 (by omega)
  have hEnd : ∀ k, fetchLoop 0 trace = some k →
      ∃ p, trace.take k = p ++ List.replicate 10 FetchOutcome.failure := by
    intro k hk
    obtain ⟨-, -, h3, -⟩ := (hiff k).mp hk
    obtain ⟨p₀, q, hpq, hlen, hfail⟩ := ctr_decomp (trace.take k)
    refine ⟨p₀, ?_⟩
    rw [hpq]
    congr 1
    exact List.eq_replicate_iff.mpr ⟨by rw [hlen, h3], hfail⟩
  refine ⟨⟨?_, ?_⟩, ?_, fun n => rfl⟩
  · rintro ⟨k, hk⟩
    obtain ⟨p, hp⟩ := hEnd k hk
    refine ⟨p, trace.drop k, ?_⟩
    conv_lhs => rw [← List.take_append_drop k trace]
    rw [hp, List.append_assoc]
  · rintro ⟨p, r, htr⟩
    have hm : p.length + 10 ≤ trace.length := by
      rw [htr]
      simp
    have htake : trace.take (p.length + 10) = p ++ List.replicate 10 FetchOutcome.failure := by
      rw [htr, List.append_assoc, take_append_len]
      congr 1
    have h10 : 10 ≤ ctr 0 (trace.take (p.length + 10)) := by
      rw [htake, ctr_append, ctr_all_failures _ _ (fun o ho => List.eq_of_mem_replicate ho)]
      simp
    obtain ⟨k, hkm, hk10, hkmin⟩ := ctr_first_hit trace (p.length + 10) hm h10
    have hk1 : 1 ≤ k := by
      rcases Nat.eq_zero_or_pos k with h0 | h1
      · rw [h0] at hk10
        simp [ctr_nil] at hk10
      · exact h1
    exact ⟨k, (hiff k).mpr ⟨hk1, by omega, hk10, hkmin⟩⟩
  · intro k hk
    refine ⟨hEnd k hk, ?_⟩
    obtain ⟨-, hklen, -, hmin⟩ := (hiff k).mp hk
    rintro j hj ⟨p, r, htj⟩
    have hjlen : p.length + 10 ≤ (trace.take j).length := by
      rw [htj]
      simp
    have hjle : p.length + 10 ≤ j := by
      rw [List.length_take] at hjlen
      omega
    have htake2 : trace.take (p.length + 10) = p ++ List.replicate 10 FetchOutcome.failure := by
      have h1 : (trace.take j).take (p.length + 10) = trace.take (p.length + 10) := by
        rw [List.take_take]
        congr 1
        omega
      rw [← h1, htj, List.append_assoc, take_append_len]
      congr 1
    have h10' : 10 ≤ ctr 0 (trace.take (p.length + 10)) := by
      rw [htake2, ctr_append, ctr_all_failures _ _ (fun o ho => List.eq_of_mem_replicate ho)]
      simp
    have := hmin (p.length + 10) (by omega)
    omega

/-- Witness for the retry ceiling on the concrete trace of exactly 10
failures: the fatal fires (after consuming all 10 attempts), and the ten
attempts ending there are the failures. -/
theorem getUpdates_retry_ceiling_witness :
    hasTenConsecutiveFailures (List.replicate 10 FetchOutcome.failure) ∧
    (∃ p, (List.replicate 10 FetchOutcome.failure).take 10 =
      p ++ List.replicate 10 FetchOutcome.failure) ∧
    ¬hasTenConsecutiveFailures ((List.replicate 10 FetchOutcome.failure).take 9) := by
  refine ⟨?_, ?_, ?_⟩
  · exact (getUpdates_retry_ceiling (List.replicate 10 FetchOutcome.failure)).1.mp
      ⟨10, by decide⟩
  · exact ((getUpdates_retry_ceiling (List.replicate 10 FetchOutcome.failure)).2.1 10
      (by decide)).1
  · exact ((getUpdates_retry_ceiling (List.replicate 10 FetchOutcome.failure)).2.1 10
      (by decide)).2 9 (by omega)

/-! ## Per-key FIFO of the borrow-once store (C1)

Each store operation holds the top-level mutex, so a concurrent history is a
sequence of `BOp`s; `Wait` on a future unblocks exactly at the step recorded
in its `resolved` status.  The invariant below is carried through every run:
queues hold pending futures in strictly increasing creation order, and
resolution order respects creation order per key. -/

/-- Map write/read commutation for the slot association list. -/
theorem findSlot_setSlot [DecidableEq K] (k k' : K) (b : Borrowable V) :
    ∀ l : List (K × Borrowable V),
      findSlot k' (setSlot k b l) = if k' = k then some b else findSlot k' l := by
  intro l
  induction l with
  | nil => simp [setSlot, findSlot]
  | cons hd tl ih =>
    obtain ⟨k₀, b₀⟩ := hd
    by_cases h0 : k = k₀
    · subst h0
      by_cases h1 : k' = k <;> simp [setSlot, findSlot, h1]
    · by_cases h1 : k' = k₀
      · subst h1
        have hne : ¬k' = k := fun h => h0 (h ▸ rfl)
        simp [setSlot, findSlot, h0, hne]
      · simp [setSlot, findSlot, h0, h1, ih]

theorem resolveFut_length (v : V) (t : Nat) :
    ∀ (fs : List (FutureEntry K V)) (h : Nat), (resolveFut v t fs h).length = fs.length := by
  intro fs
  induction fs with
  | nil => intro h; rfl
  | cons f rest ih =>
    intro h
    cases h with
    | zero => rfl
    | succ n => simp [resolveFut, ih]

theorem resolveFut_get?_ne (v : V) (t : Nat) :
    ∀ (fs : List (FutureEntry K V)) (h i : Nat), i ≠ h →
      (resolveFut v t fs h).get? i = fs.get? i := by
  intro fs
  induction fs with
  | nil => intro h i _; rfl
  | cons f rest ih =>
    intro h i hne
    cases h with
    | zero =>
      cases i with
      | zero => exact absurd rfl hne
      | succ n => rfl
    | succ m =>
      cases i with
      | zero => rfl
      | succ n => exact ih m n (fun hc => hne (by rw [hc]))

theorem resolveFut_get?_eq (v : V) (t : Nat) :
    ∀ (fs : List (FutureEntry K V)) (h : Nat) (f : FutureEntry K V),
      fs.get? h = some f →
      (resolveFut v t fs h).get? h = some ⟨f.key, .resolved v t⟩ := by
  intro fs
  induction fs with
  | nil => intro h f hf; simp at hf
  | cons g rest ih =>
    intro h f hf
    cases h with
    | zero =>
      simp at hf
      subst hf
      rfl
    | succ m => simpa [resolveFut] using ih m f (by simpa using hf)

theorem get?_append_lt (l l' : List α) : ∀ (i : Nat), i < l.length →
    (l ++ l').get? i = l.get? i := by
  induction l with
  | nil => intro i h; simp at h
  | cons x t ih =>
    intro i h
    cases i with
    | zero => rfl
    | succ n => exact ih n (Nat.lt_of_succ_lt_succ h)

theorem get?_append_self (l : List α) (x : α) :
    (l ++ [x]).get? l.length = some x := by
  induction l with
  | nil => rfl
  | cons y t ih => exact ih

theorem get?_some_lt (l : List α) (i : Nat) (f : α) (h : l.get? i = some f) :
    i < l.length := List.get?_eq_some.mp h |>.1

/-- The run invariant: queues hold exactly the pending futures of their key,
in strictly increasing creation order and within bounds; resolution steps lie
in the past; and resolution order respects creation order per key. -/
structure StoreInv [DecidableEq K] (s : SState K V) : Prop where
  queue_sorted : ∀ k b, findSlot k s.slots = some b → b.queue.Pairwise (· < ·)
  queue_bound : ∀ k b, findSlot k s.slots = some b → ∀ fid ∈ b.queue, fid < s.futures.length
  queue_pending : ∀ k b, findSlot k s.slots = some b → ∀ fid ∈ b.queue,
    ∃ f, s.futures.get? fid = some f ∧ f.key = k ∧ f.status = FutStatus.pending
  resolved_lt_step : ∀ i f, s.futures.get? i = some f →
    ∀ v t, f.status = FutStatus.resolved v t → t < s.step
  pending_in_queue : ∀ i f, s.futures.get? i = some f → f.status = FutStatus.pending →
    ∃ b, findSlot f.key s.slots = some b ∧ i ∈ b.queue
  fifo : ∀ i j fi fj, s.futures.get? i = some fi → s.futures.get? j = some fj →
    i < j → fi.key = fj.key → ∀ vj tj, fj.status = FutStatus.resolved vj tj →
    ∃ vi ti, fi.status = FutStatus.resolved vi ti ∧ ti < tj

theorem storeInv_init [DecidableEq K] : StoreInv (initState K V) := by
  refine ⟨?_, ?_, ?_, ?_, ?_, ?_⟩
  · intro k b hb; simp [initState, findSlot] at hb
  · intro k b hb; simp [initState, findSlot] at hb
  · intro k b hb; simp [initState, findSlot] at hb
  · intro i f hf; simp [initState] at hf
  · intro i f hf; simp [initState] at hf
  · intro i j fi fj hi; simp [initState] at hi

theorem inv_setStep [DecidableEq K] {s : SState K V} {k : K} {v : V}
    (hinv : StoreInv s) (hfind : findSlot k s.slots = none) :
    StoreInv { s with slots := setSlot k ⟨v, false, []⟩ s.slots, step := s.step + 1 } := by
  refine ⟨?_, ?_, ?_, ?_, ?_, ?_⟩
  · intro k' b hb
    simp only [findSlot_setSlot] at hb
    by_cases hk : k' = k
    · rw [if_pos hk] at hb
      injection hb with hb'
      subst hb'
      exact List.Pairwise.nil
    · rw [if_neg hk] at hb
      exact hinv.queue_sorted k' b hb
  · intro k' b hb fid hfid
    simp only [findSlot_setSlot] at hb
    by_cases hk : k' = k
    · rw [if_pos hk] at hb
      injection hb with hb'
      subst hb'
      simp at hfid
    · rw [if_neg hk] at hb
      exact hinv.queue_bound k' b hb fid hfid
  · intro k' b hb fid hfid
    simp only [findSlot_setSlot] at hb
    by_cases hk : k' = k
    · rw [if_pos hk] at hb
      injection hb with hb'
      subst hb'
      simp at hfid
    · rw [if_neg hk] at hb
      exact hinv.queue_pending k' b hb fid hfid
  · intro i f hf v' t ht
    have := hinv.resolved_lt_step i f hf v' t ht
    show t < s.step + 1
    omega
  · intro i f hf hp
    obtain ⟨b, hb, hin⟩ := hinv.pending_in_queue i f hf hp
    refine ⟨b, ?_, hin⟩
    simp only [findSlot_setSlot]
    have hk : ¬f.key = k := fun hc => by rw [hc, hfind] at hb; exact Option.noConfusion hb
    rw [if_neg hk]
    exact hb
  · intro i j fi fj hi hj hij hkey vj tj htj
    exact hinv.fifo i j fi fj hi hj hij hkey vj tj htj

theorem inv_borrow_immediate [DecidableEq K] {s : SState K V} {k : K} {b : Borrowable V}
    (hinv : StoreInv s) (hfind : findSlot k s.slots = some b)
    (hq : b.queue = []) :
    StoreInv { slots := setSlot k { b with borrowed := true } s.slots,
               futures := s.futures ++ [(⟨k, FutStatus.resolved b.value s.step⟩ : FutureEntry K V)],
               borrowResults := s.borrowResults ++ [true],
               step := s.step + 1 } := by
  refine ⟨?_, ?_, ?_, ?_, ?_, ?_⟩
  · intro k' b' hb
    simp only [findSlot_setSlot] at hb
    by_cases hk : k' = k
    · rw [if_pos hk] at hb
      injection hb with hb'
      subst hb'
      simp [hq]
    · rw [if_neg hk] at hb
      exact hinv.queue_sorted k' b' hb
  · intro k' b' hb fid hfid
    simp only [findSlot_setSlot] at hb
    show fid < (s.futures ++ [(⟨k, FutStatus.resolved b.value s.step⟩ : FutureEntry K V)]).length
    rw [List.length_append]
    by_cases hk : k' = k
    · rw [if_pos hk] at hb
      injection hb with hb'
      subst hb'
      simp [hq] at hfid
    · rw [if_neg hk] at hb
      have := hinv.queue_bound k' b' hb fid hfid
      simp
      omega
  · intro k' b' hb fid hfid
    simp only [findSlot_setSlot] at hb
    by_cases hk : k' = k
    · rw [if_pos hk] at hb
      injection hb with hb'
      subst hb'
      simp [hq] at hfid
    · rw [if_neg hk] at hb
      obtain ⟨f, hf, hkey, hp⟩ := hinv.queue_pending k' b' hb fid hfid
      have hlt := hinv.queue_bound k' b' hb fid hfid
      exact ⟨f, by rw [get?_append_lt _ _ _ hlt]; exact hf, hkey, hp⟩
  · intro i f hf v' t ht
    show t < s.step + 1
    have hlen := get?_some_lt _ i f hf
    rw [List.length_append] at hlen
    simp at hlen
    by_cases hi : i < s.futures.length
    · rw [get?_append_lt _ _ _ hi] at hf
      have := hinv.resolved_lt_step i f hf v' t ht
      omega
    · have hieq : i = s.futures.length := by omega
      rw [hieq, get?_append_self] at hf
      injection hf with hf'
      subst hf'
      injection ht with hv ht'
      omega
  · intro i f hf hp
    have hlen := get?_some_lt _ i f hf
    rw [List.length_append] at hlen
    simp at hlen
    by_cases hi : i < s.futures.length
    · rw [get?_append_lt _ _ _ hi] at hf
      obtain ⟨b'', hb'', hin⟩ := hinv.pending_in_queue i f hf hp
      have hk : ¬f.key = k := by
        intro hc
        rw [hc, hfind] at hb''
        injection hb'' with hbeq
        subst hbeq
        rw [hq] at hin
        simp at hin
      refine ⟨b'', ?_, hin⟩
      simp only [findSlot_setSlot]
      rw [if_neg hk]
      exact hb''
    · have hieq : i = s.futures.length := by omega
      rw [hieq, get?_append_self] at hf
      injection hf with hf'
      subst hf'
      simp at hp
  · intro i j fi fj hi hj hij hkey vj tj htj
    have hjlen := get?_some_lt _ j fj hj
    rw [List.length_append] at hjlen
    simp at hjlen
    have hilt : i < s.futures.length := by
      have := get?_some_lt _ i fi hi
      rw [List.length_append] at this
      simp at this
      omega
    rw [get?_append_lt _ _ _ hilt] at hi
    by_cases hjl : j < s.futures.length
    · rw [get?_append_lt _ _ _ hjl] at hj
      exact hinv.fifo i j fi fj hi hj hij hkey vj tj htj
    · have hjeq : j = s.futures.length := by omega
      rw [hjeq, get?_append_self] at hj
      injection hj with hj'
      subst hj'
      injection htj with hv ht'
      subst ht'
      cases hst : fi.status with
      | pending =>
        obtain ⟨b'', hb'', hin⟩ := hinv.pending_in_queue i fi hi hst
        rw [show fi.key = k from hkey, hfind] at hb''
        injection hb'' with hbeq
        subst hbeq
        rw [hq] at hin
        simp at hin
      | resolved vi ti =>
        have := hinv.resolved_lt_step i fi hi vi ti hst
        exact ⟨vi, ti, rfl, by omega⟩

theorem inv_borrow_enqueue [DecidableEq K] {s : SState K V} {k : K} {b : Borrowable V}
    (hinv : StoreInv s) (hfind : findSlot k s.slots = some b) :
    StoreInv { slots := setSlot k { b with queue := b.queue ++ [s.futures.length] } s.slots,
               futures := s.futures ++ [(⟨k, FutStatus.pending⟩ : FutureEntry K V)],
               borrowResults := s.borrowResults ++ [true],
               step := s.step + 1 } := by
  refine ⟨?_, ?_, ?_, ?_, ?_, ?_⟩
  · intro k' b' hb
    simp only [findSlot_setSlot] at hb
    by_cases hk : k' = k
    · rw [if_pos hk] at hb
      injection hb with hb'
      subst hb'
      show (b.queue ++ [s.futures.length]).Pairwise (· < ·)
      rw [List.pairwise_append]
      refine ⟨hinv.queue_sorted k b hfind, List.pairwise_singleton _ _, ?_⟩
      intro x hx y hy
      rw [List.mem_singleton.mp hy]
      exact hinv.queue_bound k b hfind x hx
    · rw [if_neg hk] at hb
      exact hinv.queue_sorted k' b' hb
  · intro k' b' hb fid hfid
    simp only [findSlot_setSlot] at hb
    show fid < (s.futures ++ [(⟨k, FutStatus.pending⟩ : FutureEntry K V)]).length
    rw [List.length_append]
    by_cases hk : k' = k
    · rw [if_pos hk] at hb
      injection hb with hb'
      subst hb'
      simp only [List.mem_append, List.mem_singleton] at hfid
      rcases hfid with h | h
      · have := hinv.queue_bound k b hfind fid h
        simp
        omega
      · rw [h]
        simp
    · rw [if_neg hk] at hb
      have := hinv.queue_bound k' b' hb fid hfid
      simp
      omega
  · intro k' b' hb fid hfid
    simp only [findSlot_setSlot] at hb
    by_cases hk : k' = k
    · subst hk
      rw [if_pos rfl] at hb
      injection hb with hb'
      subst hb'
      simp only [List.mem_append, List.mem_singleton] at hfid
      rcases hfid with h | h
      · obtain ⟨f, hf, hkey, hp⟩ := hinv.queue_pending k' b hfind fid h
        have hlt := hinv.queue_bound k' b hfind fid h
        exact ⟨f, by rw [get?_append_lt _ _ _ hlt]; exact hf, hkey, hp⟩
      · refine ⟨⟨k', FutStatus.pending⟩, ?_, rfl, rfl⟩
        rw [h]
        exact get?_append_self _ _
    · rw [if_neg hk] at hb
      obtain ⟨f, hf, hkey, hp⟩ := hinv.queue_pending k' b' hb fid hfid
      have hlt := hinv.queue_bound k' b' hb fid hfid
      exact ⟨f, by rw [get?_append_lt _ _ _ hlt]; exact hf, hkey, hp⟩
  · intro i f hf v' t ht
    show t < s.step + 1
    have hlen := get?_some_lt _ i f hf
    rw [List.length_append] at hlen
    simp at hlen
    by_cases hi : i < s.futures.length
    · rw [get?_append_lt _ _ _ hi] at hf
      have := hinv.resolved_lt_step i f hf v' t ht
      omega
    · have hieq : i = s.futures.length := by omega
      rw [hieq, get?_append_self] at hf
      injection hf with hf'
      subst hf'
      simp at ht
  · intro i f hf hp
    have hlen := get?_some_lt _ i f hf
    rw [List.length_append] at hlen
    simp at hlen
    by_cases hi : i < s.futures.length
    · rw [get?_append_lt _ _ _ hi] at hf
      obtain ⟨b'', hb'', hin⟩ := hinv.pending_in_queue i f hf hp
      by_cases hk : f.key = k
      · rw [hk, hfind] at hb''
        injection hb'' with hbeq
        subst hbeq
        refine ⟨{ b with queue := b.queue ++ [s.futures.length] }, ?_, ?_⟩
        · simp [findSlot_setSlot, hk]
        · simp only [List.mem_append]
          exact Or.inl hin
      · refine ⟨b'', ?_, hin⟩
        simp only [findSlot_setSlot]
        rw [if_neg hk]
        exact hb''
    · have hieq : i = s.futures.length := by omega
      rw [hieq, get?_append_self] at hf
      injection hf with hf'
      subst hf'
      refine ⟨{ b with queue := b.queue ++ [s.futures.length] }, ?_, ?_⟩
      · simp [findSlot_setSlot]
      · simp only [List.mem_append, List.mem_singleton]
        exact Or.inr hieq
  · intro i j fi fj hi hj hij hkey vj tj htj
    have hjlen := get?_some_lt _ j fj hj
    rw [List.length_append] at hjlen
    simp at hjlen
    have hilt : i < s.futures.length := by
      have := get?_some_lt _ i fi hi
      rw [List.length_append] at this
      simp at this
      omega
    rw [get?_append_lt _ _ _ hilt] at hi
    by_cases hjl : j < s.futures.length
    · rw [get?_append_lt _ _ _ hjl] at hj
      exact hinv.fifo i j fi fj hi hj hij hkey vj tj htj
    · have hjeq : j = s.futures.length := by omega
      rw [hjeq, get?_append_self] at hj
      injection hj with hj'
      subst hj'
      simp at htj

theorem inv_return_idle [DecidableEq K] {s : SState K V} {k : K} {v : V} {b : Borrowable V}
    (hinv : StoreInv s) (hfind : findSlot k s.slots = some b)
    (hq : b.queue = []) :
    StoreInv { s with slots := (setSlot k ({ b with value := v, borrowed := false }) s.slots), step := s.step + 1 } := by
  refine ⟨?_, ?_, ?_, ?_, ?_, ?_⟩
  · intro k' b' hb
    simp only [findSlot_setSlot] at hb
    by_cases hk : k' = k
    · subst hk
      rw [if_pos rfl] at hb
      injection hb with hb'
      subst hb'
      simp [hq]
    · rw [if_neg hk] at hb
      exact hinv.queue_sorted k' b' hb
  · intro k' b' hb fid hfid
    simp only [findSlot_setSlot] at hb
    by_cases hk : k' = k
    · subst hk
      rw [if_pos rfl] at hb
      injection hb with hb'
      subst hb'
      simp [hq] at hfid
    · rw [if_neg hk] at hb
      exact hinv.queue_bound k' b' hb fid hfid
  · intro k' b' hb fid hfid
    simp only [findSlot_setSlot] at hb
    by_cases hk : k' = k
    · subst hk
      rw [if_pos rfl] at hb
      injection hb with hb'
      subst hb'
      simp [hq] at hfid
    · rw [if_neg hk] at hb
      exact hinv.queue_pending k' b' hb fid hfid
  · intro i f hf v' t ht
    show t < s.step + 1
    have := hinv.resolved_lt_step i f hf v' t ht
    omega
  · intro i f hf hp
    obtain ⟨b'', hb'', hin⟩ := hinv.pending_in_queue i f hf hp
    by_cases hk : f.key = k
    · rw [hk, hfind] at hb''
      injection hb'' with hbeq
      subst hbeq
      rw [hq] at hin
      simp at hin
    · refine ⟨b'', ?_, hin⟩
      simp only [findSlot_setSlot]
      rw [if_neg hk]
      exact hb''
  · intro i j fi fj hi hj hij hkey vj tj htj
    exact hinv.fifo i j fi fj hi hj hij hkey vj tj htj

theorem inv_return_pop [DecidableEq K] {s : SState K V} {k : K} {v : V} {b : Borrowable V}
    {fid : Nat} {rest : List Nat}
    (hinv : StoreInv s) (hfind : findSlot k s.slots = some b)
    (hq : b.queue = fid :: rest) :
    StoreInv { s with slots := (setSlot k ({ b with value := v, queue := rest }) s.slots), futures := resolveFut v s.step s.futures fid, step := s.step + 1 } := by
  have hsorted := hinv.queue_sorted k b hfind
  rw [hq, List.pairwise_cons] at hsorted
  obtain ⟨hfid_lt, hrest_sorted⟩ := hsorted
  obtain ⟨fh, hfh, hfhkey, hfhpend⟩ :=
    hinv.queue_pending k b hfind fid (by rw [hq]; exact List.mem_cons_self _ _)
  have hfid_len : fid < s.futures.length :=
    hinv.queue_bound k b hfind fid (by rw [hq]; exact List.mem_cons_self _ _)
  refine ⟨?_, ?_, ?_, ?_, ?_, ?_⟩
  · intro k' b' hb
    simp only [findSlot_setSlot] at hb
    by_cases hk : k' = k
    · subst hk
      rw [if_pos rfl] at hb
      injection hb with hb'
      subst hb'
      exact hrest_sorted
    · rw [if_neg hk] at hb
      exact hinv.queue_sorted k' b' hb
  · intro k' b' hb x hx
    simp only [findSlot_setSlot] at hb
    show x < (resolveFut v s.step s.futures fid).length
    rw [resolveFut_length]
    by_cases hk : k' = k
    · subst hk
      rw [if_pos rfl] at hb
      injection hb with hb'
      subst hb'
      exact hinv.queue_bound k' b hfind x (by rw [hq]; exact List.mem_cons_of_mem _ hx)
    · rw [if_neg hk] at hb
      exact hinv.queue_bound k' b' hb x hx
  · intro k' b' hb x hx
    simp only [findSlot_setSlot] at hb
    by_cases hk : k' = k
    · subst hk
      rw [if_pos rfl] at hb
      injection hb with hb'
      subst hb'
      have hxq : x ∈ b.queue := by rw [hq]; exact List.mem_cons_of_mem _ hx
      obtain ⟨f, hf, hkey, hp⟩ := hinv.queue_pending k' b hfind x hxq
      have hxne : x ≠ fid := fun hc => by
        have := hfid_lt x hx
        omega
      exact ⟨f, by rw [resolveFut_get?_ne _ _ _ _ _ hxne]; exact hf, hkey, hp⟩
    · rw [if_neg hk] at hb
      obtain ⟨f, hf, hkey, hp⟩ := hinv.queue_pending k' b' hb x hx
      have hxne : x ≠ fid := by
        intro hc
        subst hc
        rw [hf] at hfh
        injection hfh with hfeq
        subst hfeq
        rw [hkey] at hfhkey
        exact hk hfhkey
      exact ⟨f, by rw [resolveFut_get?_ne _ _ _ _ _ hxne]; exact hf, hkey, hp⟩
  · intro i f hf v' t ht
    show t < s.step + 1
    by_cases hi : i = fid
    · subst hi
      rw [resolveFut_get?_eq _ _ _ _ fh hfh] at hf
      injection hf with hf'
      subst hf'
      simp at ht
      omega
    · rw [resolveFut_get?_ne _ _ _ _ _ hi] at hf
      have := hinv.resolved_lt_step i f hf v' t ht
      omega
  · intro i f hf hp
    by_cases hi : i = fid
    · subst hi
      rw [resolveFut_get?_eq _ _ _ _ fh hfh] at hf
      injection hf with hf'
      subst hf'
      simp at hp
    · rw [resolveFut_get?_ne _ _ _ _ _ hi] at hf
      obtain ⟨b'', hb'', hin⟩ := hinv.pending_in_queue i f hf hp
      by_cases hk : f.key = k
      · rw [hk, hfind] at hb''
        injection hb'' with hbeq
        subst hbeq
        rw [hq] at hin
        rcases List.mem_cons.mp hin with h | h
        · exact absurd h hi
        · refine ⟨{ b with value := v, queue := rest }, ?_, h⟩
          simp only [findSlot_setSlot]
          rw [if_pos hk]
      · refine ⟨b'', ?_, hin⟩
        simp only [findSlot_setSlot]
        rw [if_neg hk]
        exact hb''
  · intro i j fi fj hi hj hij hkey vj tj htj
    by_cases hjf : j = fid
    · subst hjf
      rw [resolveFut_get?_eq _ _ _ _ fh hfh] at hj
      injection hj with hj'
      subst hj'
      simp at htj
      obtain ⟨hveq, hteq⟩ := htj
      subst hteq
      have hine : i ≠ j := by omega
      rw [resolveFut_get?_ne _ _ _ _ _ hine] at hi
      cases hst : fi.status with
      | pending =>
        obtain ⟨b'', hb'', hin⟩ := hinv.pending_in_queue i fi hi hst
        have hkk : fi.key = k := by
          simpa [hfhkey] using hkey
        rw [hkk, hfind] at hb''
        injection hb'' with hbeq
        subst hbeq
        rw [hq] at hin
        rcases List.mem_cons.mp hin with h | h
        · exact absurd h hine
        · have := hfid_lt i h
          omega
      | resolved vi ti =>
        have := hinv.resolved_lt_step i fi hi vi ti hst
        exact ⟨vi, ti, rfl, by omega⟩
    · rw [resolveFut_get?_ne _ _ _ _ _ hjf] at hj
      by_cases hif : i = fid
      · subst hif
        exfalso
        rw [resolveFut_get?_eq _ _ _ _ fh hfh] at hi
        injection hi with hi'
        subst hi'
        have hkk : fh.key = fj.key := by simpa using hkey
        obtain ⟨vi, ti, hsti, -⟩ :=
          hinv.fifo i j fh fj hfh hj hij hkk vj tj htj
        rw [hfhpend] at hsti
        exact FutStatus.noConfusion hsti
      · rw [resolveFut_get?_ne _ _ _ _ _ hif] at hi
        exact hinv.fifo i j fi fj hi hj hij hkey vj tj htj

theorem inv_borrow_miss [DecidableEq K] {s : SState K V} (hinv : StoreInv s) :
    StoreInv { s with borrowResults := s.borrowResults ++ [false], step := s.step + 1 } := by
  refine ⟨hinv.queue_sorted, hinv.queue_bound, hinv.queue_pending, ?_,
    hinv.pending_in_queue, hinv.fifo⟩
  intro i f hf v t ht
  show t < s.step + 1
  have := hinv.resolved_lt_step i f hf v t ht
  omega

theorem inv_doOp [DecidableEq K] {s s' : SState K V} {op : BOp K V}
    (hinv : StoreInv s) (h : doOp s op = .ok s') : StoreInv s' := by
  cases op with
  | set k v =>
    cases hfind : findSlot k s.slots with
    | some b => simp [doOp, setStep, hfind] at h
    | none =>
      have hr : doOp s (BOp.set k v) =
          .ok { s with slots := setSlot k ⟨v, false, []⟩ s.slots, step := s.step + 1 } := by
        simp [doOp, setStep, hfind]
      rw [hr] at h
      injection h with h'
      subst h'
      exact inv_setStep hinv hfind
  | borrow k =>
    cases hfind : findSlot k s.slots with
    | none =>
      have hr : doOp s (BOp.borrow k) =
          .ok { s with borrowResults := s.borrowResults ++ [false], step := s.step + 1 } := by
        simp [doOp, borrowStep, hfind]
      rw [hr] at h
      injection h with h'
      subst h'
      exact inv_borrow_miss hinv
    | some b =>
      by_cases hqb : b.queue = [] ∧ b.borrowed = false
      · have hr : doOp s (BOp.borrow k) =
            .ok { slots := (setSlot k ({ b with borrowed := true }) s.slots), futures := s.futures ++ [(⟨k, FutStatus.resolved b.value s.step⟩ : FutureEntry K V)], borrowResults := s.borrowResults ++ [true], step := s.step + 1 } := by
          simp [doOp, borrowStep, hfind, hqb.1, hqb.2]
        rw [hr] at h
        injection h with h'
        subst h'
        exact inv_borrow_immediate hinv hfind hqb.1
      · have hr : doOp s (BOp.borrow k) =
            .ok { slots := (setSlot k ({ b with queue := b.queue ++ [s.futures.length] }) s.slots), futures := s.futures ++ [(⟨k, FutStatus.pending⟩ : FutureEntry K V)], borrowResults := s.borrowResults ++ [true], step := s.step + 1 } := by
          simp only [doOp, borrowStep, hfind]
          rw [if_neg hqb]
        rw [hr] at h
        injection h with h'
        subst h'
        exact inv_borrow_enqueue hinv hfind
  | ret k v =>
    cases hfind : findSlot k s.slots with
    | none => simp [doOp, returnStep, hfind] at h
    | some b =>
      cases hqq : b.queue with
      | nil =>
        have hr : doOp s (BOp.ret k v) =
            .ok { s with slots := (setSlot k ({ b with value := v, borrowed := false }) s.slots), step := s.step + 1 } := by
          simp [doOp, returnStep, hfind, hqq]
        rw [hr] at h
        injection h with h'
        subst h'
        exact inv_return_idle hinv hfind hqq
      | cons fid rest =>
        have hr : doOp s (BOp.ret k v) =
            .ok { s with slots := (setSlot k ({ b with value := v, queue := rest }) s.slots), futures := resolveFut v s.step s.futures fid, step := s.step + 1 } := by
          simp [doOp, returnStep, hfind, hqq]
        rw [hr] at h
        injection h with h'
        subst h'
        exact inv_return_pop hinv hfind hqq

theorem inv_runOps [DecidableEq K] : ∀ (ops : List (BOp K V)) (s s' : SState K V),
    StoreInv s → runOps s ops = .ok s' → StoreInv s' := by
  intro ops
  induction ops with
  | nil =>
    intro s s' hinv h
    simp [runOps] at h
    subst h
    exact hinv
  | cons op rest ih =>
    intro s s' hinv h
    cases hdo : doOp s op with
    | error e => simp [runOps, hdo] at h
    | ok s₁ =>
      have h' : runOps s₁ rest = .ok s' := by simpa [runOps, hdo] using h
      exact ih s₁ s' (inv_doOp hinv hdo) h'

/-- C1: per-key FIFO of the borrow-once store.  For every history of store
operations (each operation is atomic under the top-level mutex, so any
interleaving is such a history), if two `Borrow` calls on the same key create
futures Fi and Fj in that order (`i < j` in creation order), then whenever
Fj's `Wait` unblocks (its future resolves, at step `tj`), Fi's `Wait` had
already unblocked at a strictly earlier step `ti < tj` — and since a queued
future is only resolved by the `Return` of the previous holder, Fi's
wait-then-return cycle completes before Fj's wait unblocks.  Instantiated at
the state-binding queue, two updates with the same state key are handled
strictly in the order the binder borrowed their state futures. -/
theorem borrowonce_per_key_fifo [DecidableEq K] (ops : List (BOp K V)) (s : SState K V)
    (hrun : runOps (initState K V) ops = .ok s)
    (i j : Nat) (fi fj : FutureEntry K V)
    (hi : s.futures.get? i = some fi) (hj : s.futures.get? j = some fj)
    (hij : i < j) (hkey : fi.key = fj.key)
    (vj : V) (tj : Nat) (htj : fj.status = FutStatus.resolved vj tj) :
    ∃ vi ti, fi.status = FutStatus.resolved vi ti ∧ ti < tj :=
  (inv_runOps ops (initState K V) s storeInv_init hrun).fifo i j fi fj hi hj hij hkey vj tj htj

/-- Witness for the per-key FIFO on the concrete history set, borrow, borrow,
return: the second future resolves at step 3, so the theorem yields the first
future's strictly earlier resolution. -/
theorem borrowonce_per_key_fifo_witness :
    ∃ vi ti,
      (FutureEntry.mk "k" (FutStatus.resolved "a" 1) : FutureEntry String String).status =
        FutStatus.resolved vi ti ∧ ti < 3 :=
  borrowonce_per_key_fifo
    [BOp.set "k" "a", BOp.borrow "k", BOp.borrow "k", BOp.ret "k" "b"]
    ⟨[("k", ⟨"b", true, []⟩)], [⟨"k", FutStatus.resolved "a" 1⟩, ⟨"k", FutStatus.resolved "b" 3⟩],
      [true, true], 4⟩
    (by rfl) 0 1 ⟨"k", FutStatus.resolved "a" 1⟩ ⟨"k", FutStatus.resolved "b" 3⟩
    rfl rfl (by decide) rfl "b" 3 rfl
